import Mathlib

/-!
Verification of the aeron properties-file parser
(`aeron-driver/src/main/c/util/aeron_properties_util.c`).

The C functions are shallowly embedded: the assembly buffer becomes a
function `Nat → Char`, `size_t` offsets become `Nat` with explicit
`% 2 ^ 64` wherever the C arithmetic can wrap, a line becomes a
`List Char` (the byte just past the end of a C line is its null
terminator, so reading at an index `≥ length` yields `'\x00'`), and the
handler callback becomes a function `List Char → List Char → Int`.
Every write into the buffer is also recorded in a write-index trace so
that memory-safety statements can be made about it.
-/

namespace Aeron

/-- Modelled from the spec: `MAX_LENGTH` is "a single compile-time constant"
defining both the read-buffer size and the assembly-buffer capacity
(spec §6.4).  The header `aeron_properties_util.h` that defines
`AERON_PROPERTIES_MAX_LENGTH` is not among the sources; the upstream
value 2048 is used as the concrete capacity.  No claim depends on the
particular value. -/
def AERON_PROPERTIES_MAX_LENGTH : Nat := 2048

/-- Size of the `size_t` value space: the C offsets `name_end` and
`value_end` are `size_t`, so their arithmetic wraps modulo `2 ^ 64`. -/
def SIZE64 : Nat := 2 ^ 64

/-- One `size_t` decrement, as in the C expression `--state->name_end`:
wraps to `2 ^ 64 - 1` when the operand is zero. -/
def size_dec (n : Nat) : Nat := (n + (SIZE64 - 1)) % SIZE64

/-- The `size_t` expression `length - 1` used for the inclusive scan end:
wraps to `2 ^ 64 - 1` when `length = 0`. -/
def size_sub1 (n : Nat) : Nat := (n + (SIZE64 - 1)) % SIZE64

/-- Byte at index `i` of a line.  A C line of `length` bytes carries a null
terminator at index `length`; the parser never reads past the first null,
so giving `'\x00'` for every out-of-range index is faithful. -/
def charAt (l : List Char) (i : Nat) : Char := (l[i]?).getD '\x00'

/-- The whitespace test `c == ' ' || c == '\t'` of the C source. -/
def isWsChar (c : Char) : Bool := c = ' ' || c = '\t'

/-- The separator test `':' == c || '=' == c` of the C source. -/
def isSepChar (c : Char) : Bool := c = ':' || c = '='

/-- Pointwise update of the assembly buffer, one C array store. -/
def updateBuf (buf : Nat → Char) (i : Nat) (c : Char) : Nat → Char :=
  fun j => if j = i then c else buf j

/-- Fuel-driven body of `aeron_next_non_whitespace`: iterate `i` from
`start` for at most `fuel` steps (the C loop runs while `i <= end`,
so the caller passes `fuel = end + 1 - start`), skipping blanks,
answering `-1` at a null byte or when the range is exhausted. -/
def nextNonWsAux (l : List Char) : Nat → Nat → Int
  | _, 0 => -1
  | start, fuel + 1 =>
    let c := charAt l start
    if isWsChar c then nextNonWsAux l (start + 1) fuel
    else if c = '\x00' then -1 else (start : Int)

/-- `aeron_next_non_whitespace(buffer, start, end)`: smallest index in
`[start, end]` holding a non-blank byte, or `-1` if a null byte or the
end of the range comes first. -/
def aeron_next_non_whitespace (l : List Char) (start fin : Nat) : Int :=
  nextNonWsAux l start (fin + 1 - start)

/-- Iterated buffer stores of consecutive bytes, used only to describe
the effect of the name-copying loop in proofs. -/
def writeChunk : (Nat → Char) → Nat → List Char → (Nat → Char)
  | buf, _, [] => buf
  | buf, ne, c :: cs => writeChunk (updateBuf buf ne c) (ne + 1) cs

/-- The parser state `aeron_properties_parser_state_t`: the assembly
buffer `property_str` together with the two `size_t` offsets. -/
structure ParserState where
  property_str : Nat → Char
  name_end : Nat
  value_end : Nat

/-- Modelled from the spec: `aeron_properties_parse_init` (declared in the
missing header, `extern`-instantiated at the bottom of the source file)
resets the parser "to the zero state": both offsets become zero, the
buffer bytes are retained. -/
def aeron_properties_parse_init (s : ParserState) : ParserState :=
  { s with name_end := 0, value_end := 0 }

/-- Result of the back-trimming loop of `aeron_properties_parse_line`. -/
structure TrimOut where
  buf : Nat → Char
  name_end : Nat
  writes : List Nat

/-- The trailing-whitespace trim loop
`for (int j = i - 1; j >= 0; j--) { if (not blank) break; property_str[--name_end] = '\0'; }`.
The first argument after the line is `j + 1`, so `0` encodes a negative
`j` (when the separator sits at index 0 the C initialiser `i - 1`
underflows `size_t` and converts to `-1` on the usual ABI, running the
loop zero times).  The decrement is a `size_t` decrement and wraps. -/
def trimLoop (l : List Char) : Nat → (Nat → Char) → Nat → List Nat → TrimOut
  | 0, buf, ne, ws => ⟨buf, ne, ws⟩
  | j + 1, buf, ne, ws =>
    if isWsChar (charAt l j) then
      trimLoop l j (updateBuf buf (size_dec ne) '\x00') (size_dec ne) (ws ++ [size_dec ne])
    else ⟨buf, ne, ws⟩

/-- Result of the name-scanning loop of `aeron_properties_parse_line`. -/
structure LoopOut where
  buf : Nat → Char
  name_end : Nat
  value_end : Nat
  value_start : Nat
  writes : List Nat

/-- The name loop `for (size_t i = cursor; i < length; i++)`: copy bytes
into the buffer at `name_end++` until a separator, then null-terminate,
trim the name and set `value_end = name_end + 1` and
`value_start = i + 1`.  If the line ends first, `value_start` keeps its
initial value 0 and `value_end` keeps the caller's value `ve0`.
`fuel` is `length - i`; `name_end` is incremented at most `length` times
from 0, and `length < capacity` has already been checked, so the
increment cannot wrap and is written without `% SIZE64`. -/
def nameLoop (l : List Char) (ve0 : Nat) : Nat → Nat → (Nat → Char) → Nat → List Nat → LoopOut
  | 0, _, buf, ne, ws => ⟨buf, ne, ve0, 0, ws⟩
  | fuel + 1, i, buf, ne, ws =>
    let c := charAt l i
    if isSepChar c then
      let t := trimLoop l i (updateBuf buf ne '\x00') ne (ws ++ [ne])
      ⟨t.buf, t.name_end, (t.name_end + 1) % SIZE64, i + 1, t.writes⟩
    else
      nameLoop l ve0 fuel (i + 1) (updateBuf buf ne c) (ne + 1) (ws ++ [ne])

/-- Result of a modelled `memcpy` into the assembly buffer. -/
structure MemOut where
  buf : Nat → Char
  writes : List Nat

/-- `memcpy(property_str + dst, line + src, n)`, recording write indices. -/
def memcpyBuf (l : List Char) : (Nat → Char) → Nat → Nat → Nat → MemOut
  | buf, _, _, 0 => ⟨buf, []⟩
  | buf, dst, src, n + 1 =>
    let m := memcpyBuf l (updateBuf buf dst (charAt l src)) (dst + 1) (src + 1) n
    ⟨m.buf, dst :: m.writes⟩

/-- Read a null-terminated C string out of the buffer starting at `start`,
with enough fuel to reach the terminator (the parser always writes one
within the capacity on defined executions). -/
def cString (buf : Nat → Char) : Nat → Nat → List Char
  | _, 0 => []
  | start, fuel + 1 =>
    let c := buf start
    if c = '\x00' then [] else c :: cString buf (start + 1) fuel

/-- Everything `aeron_properties_parse_line` observably does in one call:
its return value, the state after the call, the records handed to the
handler (at most one), and the indices of every buffer store performed. -/
structure ParseOut where
  result : Int
  state : ParserState
  emits : List (List Char × List Char)
  writes : List Nat

/-- The tail shared by both branches of `aeron_properties_parse_line`
(lines 128–144 of the source): if the last byte of the line is a
backslash, append `line[value_start .. length-1]` at `value_end` and
return 0 without emitting; otherwise append `line[value_start .. length)`,
null-terminate, invoke the handler with the name and value regions,
reset the state, and return the handler's value.  `value_start ≤ length - 1`
holds whenever this code is reached (the scanner returned an index of a
non-null byte), so the `size_t` count `length - value_start - 1` never
underflows and is written as plain `Nat` subtraction. -/
def commonTail (l : List Char) (value_start : Nat) (buf : Nat → Char)
    (name_end value_end : Nat) (ws0 : List Nat)
    (handler : List Char → List Char → Int) : ParseOut :=
  let length := l.length
  if charAt l (length - 1) = '\\' then
    let n := length - value_start - 1
    let m := memcpyBuf l buf value_end value_start n
    ⟨0, ⟨m.buf, name_end, (value_end + n) % SIZE64⟩, [], ws0 ++ m.writes⟩
  else
    let n := length - value_start
    let m := memcpyBuf l buf value_end value_start n
    let ve1 := (value_end + n) % SIZE64
    let buf2 := updateBuf m.buf ve1 '\x00'
    let name := cString buf2 0 AERON_PROPERTIES_MAX_LENGTH
    let value := cString buf2 (name_end + 1) AERON_PROPERTIES_MAX_LENGTH
    ⟨handler name value, aeron_properties_parse_init ⟨buf2, name_end, (ve1 + 1) % SIZE64⟩,
      [(name, value)], ws0 ++ m.writes ++ [ve1]⟩

/-- `aeron_properties_parse_line(state, line, length, handler, clientd)`.
`length` is the length of the line list; `in_name` is
`0 < state->name_end ? false : true`.  The bound check
`length >= sizeof(property_str) - value_end` uses `Nat` subtraction,
which agrees with the C `size_t` subtraction whenever
`value_end ≤ capacity` (true of every state reachable without
undefined behaviour). -/
def aeron_properties_parse_line (s : ParserState) (l : List Char)
    (handler : List Char → List Char → Int) : ParseOut :=
  let length := l.length
  if AERON_PROPERTIES_MAX_LENGTH - s.value_end ≤ length then
    ⟨-1, s, [], []⟩
  else if s.name_end = 0 then
    let cursor := aeron_next_non_whitespace l 0 (size_sub1 length)
    if cursor = -1 ∨ charAt l cursor.toNat = '!' ∨ charAt l cursor.toNat = '#' then
      ⟨0, s, [], []⟩
    else
      let lo := nameLoop l s.value_end (length - cursor.toNat) cursor.toNat s.property_str 0 []
      if lo.value_end = 0 ∨ lo.name_end = 0 then
        ⟨-1, aeron_properties_parse_init ⟨lo.buf, lo.name_end, lo.value_end⟩, [], lo.writes⟩
      else
        let vs := aeron_next_non_whitespace l lo.value_start (size_sub1 length)
        if vs = -1 then
          let buf2 := updateBuf lo.buf lo.value_end '\x00'
          let name := cString buf2 0 AERON_PROPERTIES_MAX_LENGTH
          let value := cString buf2 (lo.name_end + 1) AERON_PROPERTIES_MAX_LENGTH
          ⟨handler name value,
            aeron_properties_parse_init ⟨buf2, lo.name_end, (lo.value_end + 1) % SIZE64⟩,
            [(name, value)], lo.writes ++ [lo.value_end]⟩
        else
          commonTail l vs.toNat lo.buf lo.name_end lo.value_end lo.writes handler
  else
    let vs := aeron_next_non_whitespace l 0 (size_sub1 length)
    if vs = -1 ∨ charAt l vs.toNat = '!' ∨ charAt l vs.toNat = '#' then
      ⟨0, s, [], []⟩
    else
      commonTail l vs.toNat s.property_str s.name_end s.value_end [] handler

/-- What `aeron_properties_setenv` asks of the process environment:
either remove a key or bind it (the C always passes overwrite). -/
inductive EnvAction where
  | unset (key : List Char)
  | set (key : List Char) (value : List Char) (overwrite : Bool)
deriving DecidableEq, Repr

/-- ASCII `toupper` under the portable C locale. -/
def upChar (c : Char) : Char :=
  if 'a' ≤ c ∧ c ≤ 'z' then Char.ofNat (c.toNat - 32) else c

/-- The per-character mapping of the env-name loop: `'.'` to `'_'`,
anything else to upper case. -/
def envChar (c : Char) : Char := if c = '.' then '_' else upChar c

/-- The env-name building loop of `aeron_properties_setenv`: up to
`sizeof(env_name)` iterations, stopping at the name's null terminator.
The fuel plays the role of the `i < sizeof(env_name)` bound; when the
name is at least that long the C leaves `env_name` unterminated
(undefined behaviour downstream), the model then truncates. -/
def buildEnvName : List Char → Nat → List Char
  | _, 0 => []
  | [], _ + 1 => []
  | c :: cs, fuel + 1 =>
    if c = '.' then '_' :: buildEnvName cs fuel
    else if c = '\x00' then [] else upChar c :: buildEnvName cs fuel

/-- `aeron_properties_setenv(name, value)`: build the environment key,
then unset it when the value is the empty string, otherwise set it with
overwrite; always return 0. -/
def aeron_properties_setenv (name value : List Char) : Int × EnvAction :=
  let env_name := buildEnvName name AERON_PROPERTIES_MAX_LENGTH
  if charAt value 0 = '\x00' then (0, EnvAction.unset env_name)
  else (0, EnvAction.set env_name value true)

/-- `aeron_properties_setenv_property`, the handler the file loader binds. -/
def aeron_properties_setenv_property (name value : List Char) : Int :=
  (aeron_properties_setenv name value).1

/-- Observable outcome of the loader's line loop. -/
structure LoadOut where
  result : Int
  errLine : Option Nat
  emits : List (List Char × List Char)
deriving DecidableEq

/-- The `fgets` loop of `aeron_properties_file_load`: `chunks` are the
successive strings `fgets` produced (each nonempty in any defined
execution), `lineno` the 1-based line counter.  A chunk not ending in a
newline aborts with that line number; otherwise the newline and an
optional preceding carriage return are stripped and the line is parsed,
a negative parse result aborting with the line number.  (For the
one-byte chunk `"\n"` the C rereads index `length - 1` after the
decrement, an out-of-bounds read of `line[-1]`; the model reads the
terminator `'\x00'`, which is not `'\r'`, matching the benign outcome.) -/
def aeron_properties_file_load_loop (st : ParserState) :
    List (List Char) → Nat → LoadOut
  | [], _ => ⟨0, none, []⟩
  | chunk :: rest, lineno =>
    if charAt chunk (chunk.length - 1) = '\n' then
      let l1 := chunk.dropLast
      let l2 := if charAt l1 (l1.length - 1) = '\r' then l1.dropLast else l1
      let o := aeron_properties_parse_line st l2 aeron_properties_setenv_property
      if o.result < 0 then ⟨-1, some lineno, o.emits⟩
      else
        let r := aeron_properties_file_load_loop o.state rest (lineno + 1)
        ⟨r.result, r.errLine, o.emits ++ r.emits⟩
    else ⟨-1, some lineno, []⟩

/-- Spec-language form of the loader's line stripping (spec §4.3 step 1):
remove the trailing newline, then a trailing carriage return if one
remains.  Used only to state the loader theorem; the loader itself is
modelled byte-for-byte above. -/
def stripLineSpec (chunk : List Char) : List Char :=
  if chunk.dropLast.getLast? = some '\r' then chunk.dropLast.dropLast else chunk.dropLast

/-- Observable outcome of `aeron_properties_file_load`, including whether
the source handle was released. -/
structure FileLoadOut where
  result : Int
  errLine : Option Nat
  emits : List (List Char × List Char)
  closed : Bool
deriving DecidableEq

/-- `aeron_properties_file_load(filename)`: `openOk` abstracts the
`fopen` outcome, `chunks` the strings `fgets` returned, `readErr` the
`ferror`/`feof` distinction after the loop.  Every path taken after a
successful open runs the `cleanup: fclose(fpin)` epilogue, recorded in
`closed`; on success the function returns 0, on any failure -1. -/
def aeron_properties_file_load (openOk : Bool) (chunks : List (List Char))
    (readErr : Bool) : FileLoadOut :=
  if openOk then
    let lo := aeron_properties_file_load_loop ⟨fun _ => '\x00', 0, 0⟩ chunks 1
    match lo.errLine with
    | some k => ⟨-1, some k, lo.emits, true⟩
    | none => if readErr then ⟨-1, none, lo.emits, true⟩ else ⟨0, none, lo.emits, true⟩
  else ⟨-1, none, [], false⟩

/-! ## Arithmetic and byte-access helper lemmas -/

theorem mod_SIZE64_small {n : Nat} (h : n < SIZE64) : n % SIZE64 = n :=
  Nat.mod_eq_of_lt h

theorem size_dec_of_pos {n : Nat} (h1 : 1 ≤ n) (h2 : n < SIZE64) :
    size_dec n = n - 1 := by
  unfold size_dec SIZE64 at *
  omega

theorem charAt_of_lt {l : List Char} {i : Nat} (h : i < l.length) :
    charAt l i = l.get ⟨i, h⟩ := by
  simp [charAt, List.getElem?_eq_getElem h]

theorem charAt_of_ge {l : List Char} {i : Nat} (h : l.length ≤ i) :
    charAt l i = '\x00' := by
  simp [charAt, List.getElem?_eq_none h]

theorem charAt_mem {l : List Char} {i : Nat} (h : i < l.length) :
    charAt l i ∈ l := by
  rw [charAt_of_lt h, List.get_eq_getElem]
  exact List.getElem_mem h

theorem charAt_append_right (a b : List Char) (k : Nat) :
    charAt (a ++ b) (a.length + k) = charAt b k := by
  simp [charAt, List.getElem?_append_right (Nat.le_add_right a.length k)]

theorem charAt_drop (l : List Char) (n k : Nat) :
    charAt (l.drop n) k = charAt l (n + k) := by
  simp [charAt, List.getElem?_drop]

theorem charAt_getLast {l : List Char} (h : l ≠ []) :
    charAt l (l.length - 1) = l.getLast h := by
  have hlt : l.length - 1 < l.length := by
    cases l with
    | nil => exact absurd rfl h
    | cons c t => simp
  rw [charAt_of_lt hlt, List.getLast_eq_getElem, List.get_eq_getElem]

/-! ## The whitespace scanner against its specification -/

theorem nextNonWsAux_spec (l : List Char) (hnn : '\x00' ∉ l) :
    ∀ (fuel start : Nat), l.length ≤ start + fuel →
      nextNonWsAux l start fuel =
        (match (l.drop start).dropWhile isWsChar with
         | [] => -1
         | _ :: _ => ((start + ((l.drop start).takeWhile isWsChar).length : Nat) : Int)) := by
  intro fuel
  induction fuel with
  | zero =>
    intro start h
    rw [List.drop_eq_nil_of_le (by omega)]
    rfl
  | succ fuel ih =>
    intro start h
    by_cases hlt : start < l.length
    · have hcons : l.drop start = l.get ⟨start, hlt⟩ :: l.drop (start + 1) := by
        rw [List.drop_eq_getElem_cons hlt, List.get_eq_getElem]
      have hch : charAt l start = l.get ⟨start, hlt⟩ := charAt_of_lt hlt
      show (if isWsChar (charAt l start) then nextNonWsAux l (start + 1) fuel
            else if charAt l start = '\x00' then -1 else (start : Int)) = _
      by_cases hws : isWsChar (charAt l start)
      · rw [if_pos hws, ih (start + 1) (by omega), hcons]
        rw [hch] at hws
        rw [List.dropWhile_cons_of_pos hws, List.takeWhile_cons_of_pos hws]
        cases hdw : (l.drop (start + 1)).dropWhile isWsChar with
        | nil => rfl
        | cons c t =>
          simp only [List.length_cons]
          congr 1
          omega
      · rw [if_neg hws]
        have hnz : charAt l start ≠ '\x00' := by
          intro hc
          exact hnn (hc ▸ charAt_mem hlt)
        rw [if_neg hnz, hcons]
        rw [hch] at hws
        rw [List.dropWhile_cons_of_neg hws, List.takeWhile_cons_of_neg hws]
        simp
    · have hnil : l.drop start = [] := List.drop_eq_nil_of_le (by omega)
      have hch : charAt l start = '\x00' := charAt_of_ge (by omega)
      show (if isWsChar (charAt l start) then nextNonWsAux l (start + 1) fuel
            else if charAt l start = '\x00' then -1 else (start : Int)) = _
      rw [hch, hnil]
      rfl

theorem scan_spec (l : List Char) (hnn : '\x00' ∉ l) (hsz : l.length < SIZE64) (start : Nat) :
    aeron_next_non_whitespace l start (size_sub1 l.length) =
      (match (l.drop start).dropWhile isWsChar with
       | [] => -1
       | _ :: _ => ((start + ((l.drop start).takeWhile isWsChar).length : Nat) : Int)) := by
  unfold aeron_next_non_whitespace
  apply nextNonWsAux_spec l hnn
  rcases hl : l.length with _ | n
  · omega
  · have h2 : n + 1 < SIZE64 := by omega
    have h1 : size_sub1 (n + 1) = n := by
      simp only [size_sub1, SIZE64] at h2 ⊢
      omega
    omega

theorem scan_blank (l : List Char) (hnn : '\x00' ∉ l) (hsz : l.length < SIZE64)
    (start : Nat) (h : (l.drop start).dropWhile isWsChar = []) :
    aeron_next_non_whitespace l start (size_sub1 l.length) = -1 := by
  rw [scan_spec l hnn hsz start, h]

theorem scan_found (l : List Char) (hnn : '\x00' ∉ l) (hsz : l.length < SIZE64)
    (start : Nat) {c : Char} {t : List Char}
    (h : (l.drop start).dropWhile isWsChar = c :: t) :
    aeron_next_non_whitespace l start (size_sub1 l.length) =
      ((start + ((l.drop start).takeWhile isWsChar).length : Nat) : Int) ∧
    charAt l (start + ((l.drop start).takeWhile isWsChar).length) = c := by
  constructor
  · rw [scan_spec l hnn hsz start, h]
  · have hsplit : l.drop start = (l.drop start).takeWhile isWsChar ++ (c :: t) := by
      conv_lhs => rw [← List.takeWhile_append_dropWhile (p := isWsChar) (l := l.drop start)]
      rw [h]
    have h2 := charAt_append_right ((l.drop start).takeWhile isWsChar) (c :: t) 0
    rw [← hsplit, Nat.add_zero] at h2
    rw [← charAt_drop, h2]
    simp [charAt]

/-! ## Lists: whitespace prefixes -/

theorem charAt_cons_zero (c : Char) (cs : List Char) : charAt (c :: cs) 0 = c := by
  simp [charAt]

theorem charAt_cons_succ (c : Char) (cs : List Char) (k : Nat) :
    charAt (c :: cs) (k + 1) = charAt cs k := by
  simp [charAt]

theorem takeWhile_all_append (p : Char → Bool) (a b : List Char)
    (ha : ∀ c ∈ a, p c = true) :
    (a ++ b).takeWhile p = a ++ b.takeWhile p := by
  induction a with
  | nil => simp
  | cons c cs ih =>
    simp only [List.cons_append]
    rw [List.takeWhile_cons_of_pos (ha c (by simp)), ih (fun c hc => ha c (by simp [hc]))]

theorem dropWhile_all_append (p : Char → Bool) (a b : List Char)
    (ha : ∀ c ∈ a, p c = true) :
    (a ++ b).dropWhile p = b.dropWhile p := by
  induction a with
  | nil => simp
  | cons c cs ih =>
    simp only [List.cons_append]
    rw [List.dropWhile_cons_of_pos (ha c (by simp)), ih (fun c hc => ha c (by simp [hc]))]

theorem dropWhile_eq_drop (p : Char → Bool) (l : List Char) :
    l.dropWhile p = l.drop (l.takeWhile p).length := by
  induction l with
  | nil => simp
  | cons c cs ih =>
    by_cases h : p c
    · rw [List.dropWhile_cons_of_pos h, List.takeWhile_cons_of_pos h, ih]
      simp
    · rw [List.dropWhile_cons_of_neg h, List.takeWhile_cons_of_neg h]
      simp

/-! ## Buffer-manipulation loops against their specifications -/

theorem writeChunk_at (chunk : List Char) :
    ∀ (buf : Nat → Char) (ne j : Nat),
      writeChunk buf ne chunk j =
        if ne ≤ j ∧ j < ne + chunk.length then charAt chunk (j - ne) else buf j := by
  induction chunk with
  | nil =>
    intro buf ne j
    simp only [writeChunk, List.length_nil]
    rw [if_neg (by omega)]
  | cons c cs ih =>
    intro buf ne j
    simp only [writeChunk, List.length_cons]
    rw [ih]
    by_cases h1 : ne + 1 ≤ j ∧ j < ne + 1 + cs.length
    · rw [if_pos h1, if_pos (by omega)]
      have hj : j - ne = (j - (ne + 1)) + 1 := by omega
      rw [hj, charAt_cons_succ]
    · rw [if_neg h1]
      by_cases h2 : j = ne
      · subst h2
        rw [if_pos (by omega)]
        simp [updateBuf, charAt_cons_zero, Nat.sub_self]
      · rw [if_neg (by omega)]
        simp [updateBuf, h2]

theorem trimLoop_run (l : List Char) :
    ∀ (k stop ne : Nat) (buf : Nat → Char) (ws : List Nat),
      (∀ m, stop < m → m < stop + 1 + k → isWsChar (charAt l m) = true) →
      isWsChar (charAt l stop) = false →
      k < ne → ne < SIZE64 →
      ∃ buf2 ws2, trimLoop l (stop + 1 + k) buf ne ws = ⟨buf2, ne - k, ws ++ ws2⟩ ∧
        ∀ j, buf2 j = if ne - k ≤ j ∧ j < ne then '\x00' else buf j := by
  intro k
  induction k with
  | zero =>
    intro stop ne buf ws _ hstop _ _
    refine ⟨buf, [], ?_, ?_⟩
    · show trimLoop l (stop + 1) buf ne ws = _
      show (if isWsChar (charAt l stop) then _ else (⟨buf, ne, ws⟩ : TrimOut)) = _
      rw [if_neg (by simp [hstop])]
      simp
    · intro j
      rw [if_neg (by omega)]
  | succ k ih =>
    intro stop ne buf ws hws hstop hk hne
    have hcond : isWsChar (charAt l (stop + 1 + k)) = true :=
      hws (stop + 1 + k) (by omega) (by omega)
    have hdec : size_dec ne = ne - 1 := size_dec_of_pos (by omega) hne
    obtain ⟨buf2, ws2, heq, hpt⟩ :=
      ih stop (ne - 1) (updateBuf buf (ne - 1) '\x00') (ws ++ [ne - 1])
        (fun m h1 h2 => hws m h1 (by omega)) hstop (by omega) (by omega)
    have hstep : stop + 1 + (k + 1) = (stop + 1 + k) + 1 := by omega
    have hunfold : trimLoop l (stop + 1 + (k + 1)) buf ne ws =
        trimLoop l (stop + 1 + k) (updateBuf buf (ne - 1) '\x00') (ne - 1) (ws ++ [ne - 1]) := by
      rw [hstep]
      simp only [trimLoop]
      rw [if_pos hcond, hdec]
    refine ⟨buf2, [ne - 1] ++ ws2, ?_, ?_⟩
    · rw [hunfold, heq]
      have h1 : ne - 1 - k = ne - (k + 1) := by omega
      rw [h1, List.append_assoc]
    · intro j
      rw [hpt j]
      by_cases h1 : ne - 1 - k ≤ j ∧ j < ne - 1
      · rw [if_pos h1, if_pos (by omega)]
      · rw [if_neg h1]
        by_cases h2 : j = ne - 1
        · subst h2
          rw [if_pos (by omega)]
          simp [updateBuf]
        · rw [if_neg (by omega)]
          simp [updateBuf, h2]

theorem nameLoop_copy (l : List Char) (ve0 : Nat) (chunk : List Char) :
    ∀ (fuel i ne : Nat) (buf : Nat → Char) (ws : List Nat),
      (∀ k, k < chunk.length → charAt l (i + k) = charAt chunk k) →
      (∀ c ∈ chunk, isSepChar c = false) →
      nameLoop l ve0 (chunk.length + fuel) i buf ne ws =
        nameLoop l ve0 fuel (i + chunk.length) (writeChunk buf ne chunk)
          (ne + chunk.length) (ws ++ List.range' ne chunk.length) := by
  induction chunk with
  | nil =>
    intro fuel i ne buf ws _ _
    simp [writeChunk]
  | cons c cs ih =>
    intro fuel i ne buf ws hchunk hnosep
    have hc : charAt l i = c := by
      have h0 := hchunk 0 (by simp)
      rwa [Nat.add_zero, charAt_cons_zero] at h0
    have hstep : (c :: cs).length + fuel = (cs.length + fuel) + 1 := by
      simp only [List.length_cons]
      omega
    rw [hstep]
    show (if isSepChar (charAt l i) then _ else _) = _
    rw [hc, if_neg (by simp [hnosep c (by simp)])]
    have htrans : ∀ k, k < cs.length → charAt l (i + 1 + k) = charAt cs k := by
      intro k hk
      have h1 := hchunk (k + 1) (by simp; omega)
      rw [charAt_cons_succ] at h1
      have h2 : i + (k + 1) = i + 1 + k := by omega
      rwa [h2] at h1
    rw [ih fuel (i + 1) (ne + 1) (updateBuf buf ne c) (ws ++ [ne]) htrans
      (fun c hc => hnosep c (by simp [hc]))]
    have e1 : i + 1 + cs.length = i + (c :: cs).length := by simp; omega
    have e2 : ne + 1 + cs.length = ne + (c :: cs).length := by simp; omega
    have e3 : (ws ++ [ne]) ++ List.range' (ne + 1) cs.length =
        ws ++ List.range' ne (c :: cs).length := by
      rw [List.append_assoc]
      simp [List.range'_succ]
    rw [e1, e2, e3]
    rfl

theorem memcpyBuf_run (l : List Char) :
    ∀ (n : Nat) (buf : Nat → Char) (dst src : Nat),
      (memcpyBuf l buf dst src n).writes = List.range' dst n ∧
      ∀ j, (memcpyBuf l buf dst src n).buf j =
        if dst ≤ j ∧ j < dst + n then charAt l (src + (j - dst)) else buf j := by
  intro n
  induction n with
  | zero =>
    intro buf dst src
    refine ⟨by simp [memcpyBuf], fun j => ?_⟩
    simp only [memcpyBuf]
    rw [if_neg (by omega)]
  | succ n ih =>
    intro buf dst src
    obtain ⟨ihw, ihb⟩ := ih (updateBuf buf dst (charAt l src)) (dst + 1) (src + 1)
    constructor
    · show dst :: (memcpyBuf l (updateBuf buf dst (charAt l src)) (dst + 1) (src + 1) n).writes = _
      rw [ihw, List.range'_succ]
    · intro j
      show (memcpyBuf l (updateBuf buf dst (charAt l src)) (dst + 1) (src + 1) n).buf j = _
      rw [ihb j]
      by_cases h1 : dst + 1 ≤ j ∧ j < dst + 1 + n
      · rw [if_pos h1, if_pos (by omega)]
        have e1 : src + 1 + (j - (dst + 1)) = src + (j - dst) := by omega
        rw [e1]
      · rw [if_neg h1]
        by_cases h2 : j = dst
        · subst h2
          rw [if_pos (by omega)]
          simp [updateBuf]
        · rw [if_neg (by omega)]
          simp [updateBuf, h2]

theorem cString_eq (ns : List Char) :
    ∀ (buf : Nat → Char) (start fuel : Nat),
      ns.length < fuel →
      (∀ k, k < ns.length → buf (start + k) = charAt ns k) →
      '\x00' ∉ ns →
      buf (start + ns.length) = '\x00' →
      cString buf start fuel = ns := by
  induction ns with
  | nil =>
    intro buf start fuel hfuel _ _ hterm
    rcases fuel with _ | f
    · omega
    · show (if buf start = '\x00' then [] else _) = _
      rw [if_pos (by simpa using hterm)]
  | cons c cs ih =>
    intro buf start fuel hfuel hchars hnn hterm
    rcases fuel with _ | f
    · simp at hfuel
    · have hc : buf start = c := by
        have h0 := hchars 0 (by simp)
        rwa [Nat.add_zero, charAt_cons_zero] at h0
      have hcne : c ≠ '\x00' := by
        intro hx
        exact hnn (by simp [hx])
      show (if buf start = '\x00' then [] else buf start :: cString buf (start + 1) f) = _
      rw [hc, if_neg hcne]
      congr 1
      apply ih buf (start + 1) f (by simp at hfuel; omega)
      · intro k hk
        have h1 := hchars (k + 1) (by simp; omega)
        rw [charAt_cons_succ] at h1
        have e1 : start + (k + 1) = start + 1 + k := by omega
        rwa [e1] at h1
      · intro hx
        exact hnn (by simp [hx])
      · have e1 : start + (c :: cs).length = start + 1 + cs.length := by simp; omega
        rwa [e1] at hterm

theorem buildEnvName_eq (n : List Char) :
    ∀ fuel, n.length < fuel → '\x00' ∉ n →
      buildEnvName n fuel = n.map envChar := by
  induction n with
  | nil =>
    intro fuel hfuel _
    rcases fuel with _ | f
    · omega
    · rfl
  | cons c cs ih =>
    intro fuel hfuel hnn
    rcases fuel with _ | f
    · simp at hfuel
    · show (if c = '.' then '_' :: buildEnvName cs f
            else if c = '\x00' then [] else upChar c :: buildEnvName cs f) = _
      have hcs := ih f (by simp at hfuel; omega) (fun hx => hnn (by simp [hx]))
      by_cases hdot : c = '.'
      · rw [if_pos hdot, hcs]
        simp [envChar, hdot]
      · rw [if_neg hdot, if_neg (fun hx => hnn (by simp [hx])), hcs]
        simp [envChar, hdot]

theorem scan_comment (l : List Char) (hnn : '\x00' ∉ l) (hsz : l.length < SIZE64)
    (hc : l.dropWhile isWsChar = [] ∨ (l.dropWhile isWsChar).head? = some '!' ∨
          (l.dropWhile isWsChar).head? = some '#') :
    aeron_next_non_whitespace l 0 (size_sub1 l.length) = -1 ∨
    charAt l (aeron_next_non_whitespace l 0 (size_sub1 l.length)).toNat = '!' ∨
    charAt l (aeron_next_non_whitespace l 0 (size_sub1 l.length)).toNat = '#' := by
  rcases hcons : l.dropWhile isWsChar with _ | ⟨c, t⟩
  · exact Or.inl (scan_blank l hnn hsz 0 (by rwa [List.drop_zero]))
  · obtain ⟨heq, hch⟩ := scan_found l hnn hsz 0 (by rwa [List.drop_zero])
    rcases hc with hb | hx | hx
    · rw [hcons] at hb
      exact absurd hb (by simp)
    · rw [hcons] at hx
      simp only [List.head?_cons, Option.some.injEq] at hx
      refine Or.inr (Or.inl ?_)
      rw [heq, Int.toNat_ofNat, hch, hx]
    · rw [hcons] at hx
      simp only [List.head?_cons, Option.some.injEq] at hx
      refine Or.inr (Or.inr ?_)
      rw [heq, Int.toNat_ofNat, hch, hx]

theorem charAt_append_left (a b : List Char) {k : Nat} (h : k < a.length) :
    charAt (a ++ b) k = charAt a k := by
  simp [charAt, List.getElem?_append_left h]

theorem ws_not_sep {c : Char} (h : isWsChar c = true) : isSepChar c = false := by
  simp only [isWsChar, Bool.or_eq_true, decide_eq_true_eq] at h
  rcases h with h | h <;> subst h <;> decide

theorem ws_ne {c : Char} (h : isWsChar c = true) : c ≠ '\x00' ∧ c ≠ '\\' ∧ c ≠ '\n' := by
  simp only [isWsChar, Bool.or_eq_true, decide_eq_true_eq] at h
  rcases h with h | h <;> subst h <;> refine ⟨by decide, by decide, by decide⟩

theorem charAt_last_eq {l : List Char} {c : Char} (h : l.getLast? = some c) :
    charAt l (l.length - 1) = c := by
  rw [List.getLast?_eq_getElem?] at h
  simp only [charAt, h]
  rfl

theorem charAt_last_ne {l : List Char} {c : Char} (hne : l ≠ [])
    (h : l.getLast? ≠ some c) :
    charAt l (l.length - 1) ≠ c := by
  intro hx
  apply h
  have hlt : l.length - 1 < l.length := by
    cases l with
    | nil => exact absurd rfl hne
    | cons a t => simp
  rw [List.getLast?_eq_getElem?, List.getElem?_eq_getElem hlt]
  rw [charAt_of_lt hlt, List.get_eq_getElem] at hx
  rw [hx]

/-! ## Claim theorems -/

/-- C5: for every parser state (with the `size_t` offsets in their defined
range) and every line whose length meets or exceeds
`capacity - value_end`, `aeron_properties_parse_line` fails with `-1` and
no field of the state changes, nothing is emitted and nothing is
written. -/
theorem parse_line_bound_check (s : ParserState) (l : List Char)
    (handler : List Char → List Char → Int)
    (_hv : s.value_end ≤ AERON_PROPERTIES_MAX_LENGTH)
    (hl : AERON_PROPERTIES_MAX_LENGTH - s.value_end ≤ l.length) :
    aeron_properties_parse_line s l handler = ⟨-1, s, [], []⟩ := by
  simp only [aeron_properties_parse_line]
  rw [if_pos hl]

/-- Witness for C5 at a concrete mid-record state and an 8-byte line. -/
theorem parse_line_bound_check_witness :
    aeron_properties_parse_line ⟨fun _ => '\x00', 3, 2040⟩ (List.replicate 8 'a')
      (fun _ _ => 0) = ⟨-1, ⟨fun _ => '\x00', 3, 2040⟩, [], []⟩ :=
  parse_line_bound_check ⟨fun _ => '\x00', 3, 2040⟩ (List.replicate 8 'a')
    (fun _ _ => 0) (by decide) (by decide)

/-- C4 (amended): in both parser states, a line that is entirely blank or
whose first non-blank character is `'!'` or `'#'` — provided its length
passes the bound check, `length < capacity - value_end` — makes
`aeron_properties_parse_line` return 0 with the state unchanged, no
emission and no write.  (Without the length proviso the claim fails: see
the counterexample.) -/
theorem parse_line_comment_skipped (s : ParserState) (l : List Char)
    (handler : List Char → List Char → Int)
    (hnn : '\x00' ∉ l)
    (hlen : l.length < AERON_PROPERTIES_MAX_LENGTH - s.value_end)
    (hc : l.dropWhile isWsChar = [] ∨ (l.dropWhile isWsChar).head? = some '!' ∨
          (l.dropWhile isWsChar).head? = some '#') :
    aeron_properties_parse_line s l handler = ⟨0, s, [], []⟩ := by
  have hsz : l.length < SIZE64 := by
    simp only [AERON_PROPERTIES_MAX_LENGTH, SIZE64] at *
    omega
  have hcc := scan_comment l hnn hsz hc
  simp only [aeron_properties_parse_line]
  rw [if_neg (by omega)]
  by_cases hname : s.name_end = 0
  · rw [if_pos hname, if_pos hcc]
  · rw [if_neg hname, if_pos hcc]

/-- Witness for C4 (amended): a comment line in the IDLE state. -/
theorem parse_line_comment_skipped_witness :
    aeron_properties_parse_line ⟨fun _ => '\x00', 0, 0⟩ "  # x".toList (fun _ _ => 0) =
      ⟨0, ⟨fun _ => '\x00', 0, 0⟩, [], []⟩ :=
  parse_line_comment_skipped ⟨fun _ => '\x00', 0, 0⟩ "  # x".toList (fun _ _ => 0)
    (by decide) (by decide) (by decide)

/-- C4 (counterexample to the claim as stated): in an IN_VALUE state with
`value_end = 2040` (reachable, e.g. after `"abc=" ++ 2036 value bytes ++ "\"`),
an entirely blank line of 8 bytes fails the bound check and is rejected
with `-1` instead of being skipped with 0 — comment/blank skipping is
subject to the length bound, which the claim omits. -/
theorem parse_line_comment_counterexample :
    (List.replicate 8 ' ').dropWhile isWsChar = [] ∧
    (aeron_properties_parse_line ⟨fun _ => '\x00', 3, 2040⟩ (List.replicate 8 ' ')
      (fun _ _ => 0)).result = -1 := by
  refine ⟨by decide, by decide⟩

/-- C7: whenever `aeron_properties_parse_line` emits a record, its return
value is exactly the handler's return value on that record, and the
state is reset to the zero state whatever the handler returned. -/
theorem parse_line_emit_propagates (s : ParserState) (l : List Char)
    (handler : List Char → List Char → Int) (nv : List Char × List Char)
    (h : nv ∈ (aeron_properties_parse_line s l handler).emits) :
    (aeron_properties_parse_line s l handler).result = handler nv.1 nv.2 ∧
    (aeron_properties_parse_line s l handler).state.name_end = 0 ∧
    (aeron_properties_parse_line s l handler).state.value_end = 0 := by
  revert h
  simp only [aeron_properties_parse_line, commonTail, aeron_properties_parse_init]
  repeat' split
  all_goals intro h
  all_goals simp_all

/-- Witness for C7: a nonzero handler return value (7) is propagated and
the state still resets. -/
theorem parse_line_emit_propagates_witness :
    (aeron_properties_parse_line ⟨fun _ => '\x00', 0, 0⟩ "a=b".toList
      (fun _ _ => 7)).result = 7 ∧
    (aeron_properties_parse_line ⟨fun _ => '\x00', 0, 0⟩ "a=b".toList
      (fun _ _ => 7)).state.name_end = 0 ∧
    (aeron_properties_parse_line ⟨fun _ => '\x00', 0, 0⟩ "a=b".toList
      (fun _ _ => 7)).state.value_end = 0 :=
  parse_line_emit_propagates ⟨fun _ => '\x00', 0, 0⟩ "a=b".toList (fun _ _ => 7)
    (['a'], ['b']) (by decide)

/-- C8: `aeron_properties_setenv` returns 0 in every case; for every name
that fits the key buffer, the environment key is the character-by-character
image mapping `'.'` to `'_'` and everything else to ASCII upper case,
the empty value unsets the key and a nonempty value sets it with
overwrite. -/
theorem aeron_properties_setenv_spec (name value : List Char)
    (h1 : name.length < AERON_PROPERTIES_MAX_LENGTH) (h2 : '\x00' ∉ name)
    (h3 : '\x00' ∉ value) :
    (∀ n v : List Char, (aeron_properties_setenv n v).1 = 0) ∧
    aeron_properties_setenv name value =
      (0, if value = [] then EnvAction.unset (name.map envChar)
          else EnvAction.set (name.map envChar) value true) := by
  constructor
  · intro n v
    simp only [aeron_properties_setenv]
    split <;> rfl
  · simp only [aeron_properties_setenv]
    rw [buildEnvName_eq name AERON_PROPERTIES_MAX_LENGTH h1 h2]
    rcases value with _ | ⟨c, t⟩
    · rw [if_pos (by simp [charAt]), if_pos rfl]
    · have hne : charAt (c :: t) 0 ≠ '\x00' := by
        rw [charAt_cons_zero]
        exact fun hx => h3 (by simp [hx])
      rw [if_neg hne, if_neg (by simp)]

/-- Witness for C8: `"aeron.dir"` maps to `"AERON_DIR"`; a nonempty value
is set with overwrite and an empty value unsets. -/
theorem aeron_properties_setenv_spec_witness :
    aeron_properties_setenv "aeron.dir".toList "x".toList =
      (0, EnvAction.set "AERON_DIR".toList "x".toList true) ∧
    aeron_properties_setenv "novalue".toList "".toList =
      (0, EnvAction.unset "NOVALUE".toList) := by
  constructor
  · rw [(aeron_properties_setenv_spec "aeron.dir".toList "x".toList (by decide)
      (by decide) (by decide)).2]
    decide
  · rw [(aeron_properties_setenv_spec "novalue".toList "".toList (by decide)
      (by decide) (by decide)).2]
    decide

/-- C1 (the code, not the claim): from the IDLE zero state, the line
`"  =v"` — whose name is empty after trimming, hence malformed per the
spec — is not rejected: the trim loop underflows `name_end` below zero
(`size_t` wrap), the `0 == name_end` guard misses, a garbage record with
an empty name is emitted and the handler's value 0 is returned instead
of -1. -/
theorem parse_line_empty_name_bug :
    (aeron_properties_parse_line ⟨fun _ => '\x00', 0, 0⟩ "  =v".toList
      (fun _ _ => 0)).result = 0 ∧
    (aeron_properties_parse_line ⟨fun _ => '\x00', 0, 0⟩ "  =v".toList
      (fun _ _ => 0)).emits = [([], ['v'])] := by
  refine ⟨by decide, by decide⟩

/-- C6 (the code, not the claim): from the reachable IDLE zero state, the
line `"  =\"` leaves the parser in a state with
`name_end = 2^64 - 2` and `value_end = 2^64 - 1`, which is neither the
zero state nor satisfies `value_end ≤ capacity` — the claimed state
invariant is violated after an ordinary (result 0) call. -/
theorem parse_line_invariant_bug :
    (aeron_properties_parse_line ⟨fun _ => '\x00', 0, 0⟩ "  =\\".toList
      (fun _ _ => 0)).result = 0 ∧
    (aeron_properties_parse_line ⟨fun _ => '\x00', 0, 0⟩ "  =\\".toList
      (fun _ _ => 0)).state.name_end = SIZE64 - 2 ∧
    (aeron_properties_parse_line ⟨fun _ => '\x00', 0, 0⟩ "  =\\".toList
      (fun _ _ => 0)).state.value_end = SIZE64 - 1 ∧
    ¬ ((aeron_properties_parse_line ⟨fun _ => '\x00', 0, 0⟩ "  =\\".toList
      (fun _ _ => 0)).state.value_end ≤ AERON_PROPERTIES_MAX_LENGTH) := by
  refine ⟨by decide, by decide, by decide, by decide⟩

/-- C10 (the code, not the claim): from the IDLE zero state, the line
`" =v"` passes the bound check, yet the trim loop decrements `name_end`
from 0 (wrapping to `2^64 - 1`) and stores a null there — a write far
outside `[0, capacity)`. -/
theorem parse_line_oob_write_bug :
    (SIZE64 - 1) ∈ (aeron_properties_parse_line ⟨fun _ => '\x00', 0, 0⟩ " =v".toList
      (fun _ _ => 0)).writes ∧
    ¬ (∀ w ∈ (aeron_properties_parse_line ⟨fun _ => '\x00', 0, 0⟩ " =v".toList
      (fun _ _ => 0)).writes, w < AERON_PROPERTIES_MAX_LENGTH) := by
  refine ⟨by decide, fun h => absurd (h (SIZE64 - 1) (by decide)) (by decide)⟩

/-- C2: from any IDLE state, a line of shape
`w1 ++ name ++ w2 ++ sep :: rest` — leading blanks, a nonempty name that
neither begins nor ends in a blank, does not begin with a comment marker,
and contains no separator, optional blanks, a `':'` or `'='`, and a
remainder not ending in a backslash — makes `aeron_properties_parse_line`
emit exactly one record: the name exactly, and the remainder with its
leading blanks dropped and trailing blanks preserved (so `"N="` gives the
empty value).  The handler's value is returned and the state is reset. -/
theorem parse_line_new_record (s : ParserState)
    (handler : List Char → List Char → Int)
    (w1 name w2 rest : List Char) (sep : Char)
    (hs0 : s.name_end = 0) (hs1 : s.value_end = 0)
    (hsep : isSepChar sep = true)
    (hw1 : ∀ c ∈ w1, isWsChar c = true)
    (hw2 : ∀ c ∈ w2, isWsChar c = true)
    (hname : name ≠ [])
    (hhead : isWsChar (name.head hname) = false)
    (hbang : name.head hname ≠ '!')
    (hhash : name.head hname ≠ '#')
    (hlast : isWsChar (name.getLast hname) = false)
    (hnosep : ∀ c ∈ name, isSepChar c = false)
    (hnn : '\x00' ∉ w1 ++ name ++ w2 ++ sep :: rest)
    (hrest : rest.getLast? ≠ some '\\')
    (hlen : (w1 ++ name ++ w2 ++ sep :: rest).length < AERON_PROPERTIES_MAX_LENGTH) :
    (aeron_properties_parse_line s (w1 ++ name ++ w2 ++ sep :: rest) handler).emits =
      [(name, rest.dropWhile isWsChar)] ∧
    (aeron_properties_parse_line s (w1 ++ name ++ w2 ++ sep :: rest) handler).result =
      handler name (rest.dropWhile isWsChar) ∧
    (aeron_properties_parse_line s (w1 ++ name ++ w2 ++ sep :: rest) handler).state.name_end = 0 ∧
    (aeron_properties_parse_line s (w1 ++ name ++ w2 ++ sep :: rest) handler).state.value_end = 0 := by
  rcases name with _ | ⟨n0, nt⟩
  · exact absurd rfl hname
  rw [List.head_cons] at hhead hbang hhash
  set L := w1 ++ (n0 :: nt) ++ w2 ++ sep :: rest with hL
  set chunk := (n0 :: nt) ++ w2 with hchunkdef
  have hchl : chunk.length = nt.length + 1 + w2.length := by
    simp [hchunkdef]
    omega
  have hLlen : L.length = w1.length + (nt.length + 1) + w2.length + 1 + rest.length := by
    simp [hL]
    omega
  have hCAP : AERON_PROPERTIES_MAX_LENGTH = 2048 := rfl
  have hS64 : SIZE64 = 2 ^ 64 := rfl
  have hsz : L.length < SIZE64 := by
    rw [hS64]
    rw [hCAP] at hlen
    omega
  -- null-freeness, split over the pieces
  have hnnL : '\x00' ∉ L := hnn
  have hnn_name : '\x00' ∉ (n0 :: nt) := fun h => hnnL (by rw [hL]; simp at h ⊢; tauto)
  have hnn_rest : '\x00' ∉ rest := fun h => hnnL (by rw [hL]; simp; tauto)
  -- the first non-blank byte is the head of the name
  have hsplit1 : L = w1 ++ (n0 :: (nt ++ (w2 ++ sep :: rest))) := by
    rw [hL]
    simp [List.append_assoc]
  have hdw : L.dropWhile isWsChar = n0 :: (nt ++ (w2 ++ sep :: rest)) := by
    rw [hsplit1, dropWhile_all_append isWsChar w1 _ hw1,
      List.dropWhile_cons_of_neg (by simp [hhead])]
  have htw : L.takeWhile isWsChar = w1 := by
    rw [hsplit1, takeWhile_all_append isWsChar w1 _ hw1,
      List.takeWhile_cons_of_neg (by simp [hhead])]
    simp
  obtain ⟨hcur, hcurch⟩ := scan_found L hnnL hsz 0 (by rw [List.drop_zero, hdw])
  rw [List.drop_zero, htw] at hcur hcurch
  simp only [Nat.zero_add] at hcur hcurch
  -- unfold the parser
  simp only [aeron_properties_parse_line]
  rw [hs0, hs1, if_neg (by rw [hCAP] at hlen ⊢; omega)]
  rw [if_pos rfl, hcur, Int.toNat_ofNat]
  rw [if_neg (by
    rw [hcurch]
    push_neg
    refine ⟨by omega, hbang, hhash⟩)]
  -- the name loop consumes name ++ w2, then the separator
  have hfuel : L.length - w1.length = chunk.length + (1 + rest.length) := by
    rw [hLlen, hchl]
    omega
  rw [hfuel]
  have hchunk : ∀ k, k < chunk.length → charAt L (w1.length + k) = charAt chunk k := by
    intro k hk
    have hsplit : L = w1 ++ (chunk ++ sep :: rest) := by
      rw [hL, hchunkdef]
      simp [List.append_assoc]
    rw [hsplit, charAt_append_right, charAt_append_left _ _ hk]
  have hnosep_chunk : ∀ c ∈ chunk, isSepChar c = false := by
    intro c hc
    rcases List.mem_append.mp hc with h | h
    · exact hnosep c h
    · exact ws_not_sep (hw2 c h)
  rw [nameLoop_copy L 0 chunk (1 + rest.length) w1.length 0 s.property_str [] hchunk
    hnosep_chunk]
  simp only [Nat.zero_add, List.nil_append]
  rw [show 1 + rest.length = rest.length + 1 from by omega]
  simp only [nameLoop]
  have hsepch : charAt L (w1.length + chunk.length) = sep := by
    have hsplit : L = (w1 ++ chunk) ++ sep :: rest := by
      rw [hL, hchunkdef]
      simp [List.append_assoc]
    have e : w1.length + chunk.length = (w1 ++ chunk).length + 0 := by
      simp [List.length_append]
    rw [hsplit, e, charAt_append_right, charAt_cons_zero]
  rw [hsepch, if_pos hsep]
  -- the trim loop walks back over w2
  have hws_trim : ∀ m, w1.length + nt.length < m → m < (w1.length + nt.length) + 1 + w2.length →
      isWsChar (charAt L m) = true := by
    intro m h1 h2
    have hsplit : L = (w1 ++ (n0 :: nt)) ++ (w2 ++ sep :: rest) := by
      rw [hL]
      simp [List.append_assoc]
    have e : m = (w1 ++ (n0 :: nt)).length + (m - (w1.length + nt.length + 1)) := by
      simp [List.length_append]
      omega
    rw [hsplit, e, charAt_append_right,
      charAt_append_left _ _ (by simp [List.length_append] at *; omega)]
    exact hw2 _ (charAt_mem (by simp [List.length_append] at *; omega))
  have hstopch : isWsChar (charAt L (w1.length + nt.length)) = false := by
    have hsplit : L = w1 ++ ((n0 :: nt) ++ (w2 ++ sep :: rest)) := by
      rw [hL]
      simp [List.append_assoc]
    rw [hsplit, charAt_append_right, charAt_append_left _ _ (by simp),
      show nt.length = (n0 :: nt).length - 1 from by simp, charAt_getLast (by simp)]
    exact hlast
  obtain ⟨buf2, ws2, htrim, hbuf2⟩ :=
    trimLoop_run L w2.length (w1.length + nt.length) chunk.length
      (updateBuf (writeChunk s.property_str 0 chunk) chunk.length '\x00')
      (List.range' 0 chunk.length ++ [chunk.length]) hws_trim hstopch
      (by omega) (by rw [hS64]; rw [hCAP] at hlen; omega)
  rw [show (w1.length + nt.length) + 1 + w2.length = w1.length + chunk.length from by
    rw [hchl]; omega] at htrim
  rw [show chunk.length - w2.length = nt.length + 1 from by rw [hchl]; omega] at htrim hbuf2
  rw [htrim]
  have hmod : (nt.length + 1 + 1) % SIZE64 = nt.length + 2 := by
    apply mod_SIZE64_small
    rw [hS64]
    rw [hCAP] at hlen
    omega
  simp only [hmod]
  rw [if_neg (by push_neg; exact ⟨by omega, by omega⟩)]
  -- buffer contents after the name phase
  have hbuf2_low : ∀ k, k < nt.length + 1 → buf2 k = charAt (n0 :: nt) k := by
    intro k hk
    rw [hbuf2 k, if_neg (by omega)]
    simp only [updateBuf]
    rw [if_neg (by omega)]
    rw [writeChunk_at, if_pos (by constructor <;> omega)]
    rw [Nat.sub_zero]
    exact charAt_append_left _ _ (by simp; omega)
  have hbuf2_term : buf2 (nt.length + 1) = '\x00' := by
    rw [hbuf2]
    by_cases hw2e : w2.length = 0
    · rw [if_neg (by omega)]
      simp only [updateBuf]
      rw [if_pos (by omega)]
    · rw [if_pos (by constructor <;> omega)]
  -- the scan for the first value byte starts right after the separator
  have hdrop_vs : L.drop (w1.length + chunk.length + 1) = rest := by
    have hsplit : L = ((w1 ++ chunk) ++ [sep]) ++ rest := by
      rw [hL, hchunkdef]
      simp [List.append_assoc]
    have e : w1.length + chunk.length + 1 = ((w1 ++ chunk) ++ [sep]).length := by
      simp only [List.length_append, List.length_cons, List.length_nil]
    rw [hsplit, e, List.drop_left]
  rcases hv : rest.dropWhile isWsChar with _ | ⟨v0, vt⟩
  · -- empty value: emitted on the spot with an empty value string
    rw [scan_blank L hnnL hsz (w1.length + chunk.length + 1) (by rw [hdrop_vs, hv])]
    rw [if_pos rfl]
    have hname_str :
        cString (updateBuf buf2 (nt.length + 2) '\x00') 0 AERON_PROPERTIES_MAX_LENGTH =
          n0 :: nt := by
      apply cString_eq
      · rw [hCAP]
        simp
        omega
      · intro k hk
        simp only [Nat.zero_add, updateBuf]
        rw [if_neg (by simp at hk; omega)]
        exact hbuf2_low k (by simpa using hk)
      · exact hnn_name
      · simp only [Nat.zero_add, updateBuf, List.length_cons]
        rw [if_neg (by omega)]
        exact hbuf2_term
    have hvalue_str :
        cString (updateBuf buf2 (nt.length + 2) '\x00') (nt.length + 1 + 1)
          AERON_PROPERTIES_MAX_LENGTH = [] := by
      apply cString_eq
      · rw [hCAP]
        simp
      · intro k hk
        simp at hk
      · simp
      · simp [updateBuf]
    rw [hname_str, hvalue_str]
    refine ⟨rfl, rfl, rfl, rfl⟩
  · -- nonempty value: copied by the common tail, then emitted
    have hrest_ne : rest ≠ [] := by
      intro hx
      rw [hx] at hv
      simp at hv
    obtain ⟨hvs, hvsch⟩ := scan_found L hnnL hsz (w1.length + chunk.length + 1)
      (by rw [hdrop_vs, hv])
    rw [hdrop_vs] at hvs hvsch
    rw [hvs, if_neg (by omega), Int.toNat_ofNat]
    simp only [commonTail]
    have hlastch : charAt L (L.length - 1) ≠ '\\' := by
      have hsplit : L = ((w1 ++ chunk) ++ [sep]) ++ rest := by
        rw [hL, hchunkdef]
        simp [List.append_assoc]
      have e : L.length - 1 = ((w1 ++ chunk) ++ [sep]).length + (rest.length - 1) := by
        rw [hLlen]
        simp [List.length_append, hchl]
        have : rest.length ≠ 0 := fun hx => hrest_ne (List.length_eq_zero.mp hx)
        omega
      rw [hsplit] at e ⊢
      rw [e, charAt_append_right]
      exact charAt_last_ne hrest_ne hrest
    rw [if_neg hlastch]
    rw [hCAP] at hlen
    have hsum := congrArg List.length (List.takeWhile_append_dropWhile (p := isWsChar) (l := rest))
    rw [hv] at hsum
    simp only [List.length_append, List.length_cons] at hsum
    have hcount : L.length - (w1.length + chunk.length + 1 + (rest.takeWhile isWsChar).length) =
        vt.length + 1 := by
      rw [hLlen, hchl]
      omega
    rw [hcount]
    rw [mod_SIZE64_small (show nt.length + 2 + (vt.length + 1) < SIZE64 from by
      rw [hS64]; omega)]
    obtain ⟨hmw, hmb⟩ := memcpyBuf_run L (vt.length + 1) buf2 (nt.length + 2)
      (w1.length + chunk.length + 1 + (rest.takeWhile isWsChar).length)
    have hdropv : L.drop (w1.length + chunk.length + 1 + (rest.takeWhile isWsChar).length) =
        v0 :: vt := by
      rw [← List.drop_drop, hdrop_vs, ← dropWhile_eq_drop, hv]
    have hval_chars : ∀ k, k < vt.length + 1 →
        charAt L (w1.length + chunk.length + 1 + (rest.takeWhile isWsChar).length + k) =
          charAt (v0 :: vt) k := by
      intro k hk
      rw [← charAt_drop, hdropv]
    have hnn_v : '\x00' ∉ v0 :: vt := by
      intro hx
      apply hnn_rest
      rw [← hv] at hx
      exact (List.dropWhile_sublist _).subset hx
    have hname_str :
        cString (updateBuf (memcpyBuf L buf2 (nt.length + 2)
            (w1.length + chunk.length + 1 + (rest.takeWhile isWsChar).length)
            (vt.length + 1)).buf (nt.length + 2 + (vt.length + 1)) '\x00') 0
          AERON_PROPERTIES_MAX_LENGTH = n0 :: nt := by
      apply cString_eq
      · rw [hCAP]
        simp only [List.length_cons]
        omega
      · intro k hk
        simp only [List.length_cons] at hk
        simp only [Nat.zero_add, updateBuf]
        rw [if_neg (by omega)]
        rw [hmb, if_neg (by omega)]
        exact hbuf2_low k hk
      · exact hnn_name
      · simp only [Nat.zero_add, updateBuf, List.length_cons]
        rw [if_neg (by omega)]
        rw [hmb, if_neg (by omega)]
        exact hbuf2_term
    have hvalue_str :
        cString (updateBuf (memcpyBuf L buf2 (nt.length + 2)
            (w1.length + chunk.length + 1 + (rest.takeWhile isWsChar).length)
            (vt.length + 1)).buf (nt.length + 2 + (vt.length + 1)) '\x00') (nt.length + 1 + 1)
          AERON_PROPERTIES_MAX_LENGTH = v0 :: vt := by
      apply cString_eq
      · rw [hCAP]
        simp only [List.length_cons]
        omega
      · intro k hk
        simp only [List.length_cons] at hk
        simp only [updateBuf]
        rw [if_neg (by omega)]
        rw [hmb, if_pos (by refine ⟨by omega, by omega⟩)]
        rw [show w1.length + chunk.length + 1 + (rest.takeWhile isWsChar).length +
            (nt.length + 1 + 1 + k - (nt.length + 2)) =
            w1.length + chunk.length + 1 + (rest.takeWhile isWsChar).length + k from by omega]
        exact hval_chars k hk
      · exact hnn_v
      · have e : nt.length + 1 + 1 + (v0 :: vt).length = nt.length + 2 + (vt.length + 1) := by
          simp only [List.length_cons]
        rw [e]
        simp [updateBuf]
    rw [hname_str, hvalue_str]
    refine ⟨rfl, rfl, rfl, rfl⟩

/-- Witness for C2 at `"  N  =  V  "`: emits `("N", "V  ")` — the name is
trimmed on both sides, the value loses leading and keeps trailing
blanks — propagates the handler value 7 and resets the state. -/
theorem parse_line_new_record_witness :
    (aeron_properties_parse_line ⟨fun _ => '\x00', 0, 0⟩
      ("  ".toList ++ "N".toList ++ "  ".toList ++ '=' :: "  V  ".toList)
      (fun _ _ => 7)).emits = [("N".toList, "V  ".toList)] ∧
    (aeron_properties_parse_line ⟨fun _ => '\x00', 0, 0⟩
      ("  ".toList ++ "N".toList ++ "  ".toList ++ '=' :: "  V  ".toList)
      (fun _ _ => 7)).result = 7 ∧
    (aeron_properties_parse_line ⟨fun _ => '\x00', 0, 0⟩
      ("  ".toList ++ "N".toList ++ "  ".toList ++ '=' :: "  V  ".toList)
      (fun _ _ => 7)).state.name_end = 0 ∧
    (aeron_properties_parse_line ⟨fun _ => '\x00', 0, 0⟩
      ("  ".toList ++ "N".toList ++ "  ".toList ++ '=' :: "  V  ".toList)
      (fun _ _ => 7)).state.value_end = 0 := by
  have h := parse_line_new_record ⟨fun _ => '\x00', 0, 0⟩ (fun _ _ => 7)
    "  ".toList "N".toList "  ".toList "  V  ".toList '='
    rfl rfl (by decide) (by decide) (by decide) (by decide) (by decide) (by decide)
    (by decide) (by decide) (by decide) (by decide) (by decide) (by decide)
  refine ⟨?_, ?_, h.2.2.1, h.2.2.2⟩
  · rw [h.1]
    decide
  · rw [h.2.1]

theorem charAt_last_iff (l : List Char) (c : Char) (hc : c ≠ '\x00') :
    charAt l (l.length - 1) = c ↔ l.getLast? = some c := by
  cases l with
  | nil =>
    constructor
    · intro h
      exact absurd h.symm hc
    · intro h
      simp at h
  | cons a t =>
    rw [charAt_of_lt (by simp), List.getLast?_eq_getElem?,
      List.getElem?_eq_getElem (by simp), List.get_eq_getElem]
    simp

/-- C3: in the IN_VALUE state (`name_end ≠ 0`), a non-comment, non-blank
line whose last byte is a backslash makes `aeron_properties_parse_line`
append exactly the bytes from the first non-blank byte up to but
excluding the final backslash at `value_end` (zero bytes when the first
non-blank byte is that backslash — the count is a `Nat` and never
negative), advance `value_end` by exactly that count, keep the rest of
the state and buffer, emit nothing and return 0.  The final conjunct is
the claim's join example: `"N=AB\"` then `"  CD"` emits
`("N", "ABCD")` with no byte inserted between the fragments. -/
theorem parse_line_continuation (s : ParserState) (l : List Char)
    (handler : List Char → List Char → Int)
    (hne : s.name_end ≠ 0)
    (hnn : '\x00' ∉ l)
    (hlen : l.length < AERON_PROPERTIES_MAX_LENGTH - s.value_end)
    (hlast : l.getLast? = some '\\')
    (hbang : (l.dropWhile isWsChar).head? ≠ some '!')
    (hhash : (l.dropWhile isWsChar).head? ≠ some '#') :
    (aeron_properties_parse_line s l handler).result = 0 ∧
    (aeron_properties_parse_line s l handler).emits = [] ∧
    (aeron_properties_parse_line s l handler).state.name_end = s.name_end ∧
    (aeron_properties_parse_line s l handler).state.value_end =
      s.value_end + ((l.dropWhile isWsChar).length - 1) ∧
    (∀ k, k < (l.dropWhile isWsChar).length - 1 →
      (aeron_properties_parse_line s l handler).state.property_str (s.value_end + k) =
        charAt (l.dropWhile isWsChar) k) ∧
    (∀ j, j < s.value_end →
      (aeron_properties_parse_line s l handler).state.property_str j = s.property_str j) ∧
    (aeron_properties_parse_line
        (aeron_properties_parse_line ⟨fun _ => '\x00', 0, 0⟩ "N=AB\\".toList
          (fun _ _ => 0)).state
        "  CD".toList (fun _ _ => 0)).emits = [("N".toList, "ABCD".toList)] := by
  have hCAP : AERON_PROPERTIES_MAX_LENGTH = 2048 := rfl
  have hS64 : SIZE64 = 2 ^ 64 := rfl
  have hsz : l.length < SIZE64 := by
    rw [hS64]
    rw [hCAP] at hlen
    omega
  have hlastch : charAt l (l.length - 1) = '\\' := charAt_last_eq hlast
  have hlne : l ≠ [] := by
    intro hx
    rw [hx] at hlast
    simp at hlast
  rcases hdw : l.dropWhile isWsChar with _ | ⟨c0, ct⟩
  · exfalso
    have ht : l.takeWhile isWsChar = l := by
      have h2 := List.takeWhile_append_dropWhile (p := isWsChar) (l := l)
      rw [hdw, List.append_nil] at h2
      exact h2
    have hmem : '\\' ∈ l := by
      have := List.getLast?_eq_getLast l hlne
      rw [hlast] at this
      have h3 : l.getLast hlne = '\\' := Option.some.inj this.symm
      rw [← h3]
      exact List.getLast_mem hlne
    have := List.mem_takeWhile_imp (ht ▸ hmem)
    exact absurd this (by decide)
  · obtain ⟨hvs, hvsch⟩ := scan_found l hnn hsz 0 (by rw [List.drop_zero, hdw])
    rw [List.drop_zero] at hvs hvsch
    simp only [Nat.zero_add] at hvs hvsch
    have hsum := congrArg List.length (List.takeWhile_append_dropWhile (p := isWsChar) (l := l))
    rw [hdw] at hsum
    simp only [List.length_append, List.length_cons] at hsum
    have hc0bang : c0 ≠ '!' := by
      intro hx
      exact hbang (by simp [hdw, hx])
    have hc0hash : c0 ≠ '#' := by
      intro hx
      exact hhash (by simp [hdw, hx])
    simp only [aeron_properties_parse_line]
    rw [if_neg (by omega), if_neg hne, hvs, Int.toNat_ofNat]
    rw [if_neg (by
      rw [hvsch]
      push_neg
      exact ⟨by omega, hc0bang, hc0hash⟩)]
    simp only [commonTail]
    rw [if_pos hlastch]
    have hcount : l.length - (l.takeWhile isWsChar).length - 1 = ct.length := by omega
    rw [hcount]
    rw [mod_SIZE64_small (show s.value_end + ct.length < SIZE64 from by
      rw [hS64]
      rw [hCAP] at hlen
      omega)]
    obtain ⟨hmw, hmb⟩ := memcpyBuf_run l ct.length s.property_str s.value_end
      (l.takeWhile isWsChar).length
    have hdropv : l.drop (l.takeWhile isWsChar).length = c0 :: ct := by
      rw [← dropWhile_eq_drop, hdw]
    refine ⟨rfl, rfl, rfl, by simp, ?_, ?_, by decide⟩
    · intro k hk
      dsimp only
      simp only [List.length_cons] at hk
      rw [hmb, if_pos (by refine ⟨by omega, by omega⟩)]
      rw [show (l.takeWhile isWsChar).length + (s.value_end + k - s.value_end) =
        (l.takeWhile isWsChar).length + k from by omega]
      rw [← charAt_drop, hdropv]
    · intro j hj
      dsimp only
      rw [hmb, if_neg (by omega)]

/-- Witness for C3: a continuation line with leading blanks appends two
bytes and advances `value_end` from 4 to 6 without emitting. -/
theorem parse_line_continuation_witness :
    (aeron_properties_parse_line ⟨fun _ => '\x00', 1, 4⟩ "  CD\\".toList
      (fun _ _ => 0)).result = 0 ∧
    (aeron_properties_parse_line ⟨fun _ => '\x00', 1, 4⟩ "  CD\\".toList
      (fun _ _ => 0)).emits = [] ∧
    (aeron_properties_parse_line ⟨fun _ => '\x00', 1, 4⟩ "  CD\\".toList
      (fun _ _ => 0)).state.value_end = 6 := by
  have h := parse_line_continuation ⟨fun _ => '\x00', 1, 4⟩ "  CD\\".toList (fun _ _ => 0)
    (by decide) (by decide) (by decide) (by decide) (by decide) (by decide)
  refine ⟨h.1, h.2.1, ?_⟩
  rw [h.2.2.2.1]
  decide

/-- Per-line discipline of the loader's `fgets` loop, proved here and
bundled into the C9 theorem below.  A chunk not ending
in a newline byte is a fatal error carrying the current 1-based line
number; a chunk ending in newline is stripped of the newline and of a
preceding carriage return and handed to the parser; a negative parser or
handler result aborts with the line number; otherwise the loop continues
on the next line number; an exhausted stream succeeds. -/
theorem file_load_loop_spec (st : ParserState) (chunk : List Char)
    (rest : List (List Char)) (n : Nat) :
    (aeron_properties_file_load_loop st [] n = ⟨0, none, []⟩) ∧
    (chunk.getLast? ≠ some '\n' →
      aeron_properties_file_load_loop st (chunk :: rest) n = ⟨-1, some n, []⟩) ∧
    (chunk.getLast? = some '\n' →
      ((aeron_properties_parse_line st (stripLineSpec chunk)
          aeron_properties_setenv_property).result < 0 →
        aeron_properties_file_load_loop st (chunk :: rest) n =
          ⟨-1, some n, (aeron_properties_parse_line st (stripLineSpec chunk)
            aeron_properties_setenv_property).emits⟩) ∧
      (0 ≤ (aeron_properties_parse_line st (stripLineSpec chunk)
          aeron_properties_setenv_property).result →
        aeron_properties_file_load_loop st (chunk :: rest) n =
          ⟨(aeron_properties_file_load_loop
              (aeron_properties_parse_line st (stripLineSpec chunk)
                aeron_properties_setenv_property).state rest (n + 1)).result,
            (aeron_properties_file_load_loop
              (aeron_properties_parse_line st (stripLineSpec chunk)
                aeron_properties_setenv_property).state rest (n + 1)).errLine,
            (aeron_properties_parse_line st (stripLineSpec chunk)
              aeron_properties_setenv_property).emits ++
            (aeron_properties_file_load_loop
              (aeron_properties_parse_line st (stripLineSpec chunk)
                aeron_properties_setenv_property).state rest (n + 1)).emits⟩)) := by
  have hstrip : (if charAt chunk.dropLast (chunk.dropLast.length - 1) = '\r'
      then chunk.dropLast.dropLast else chunk.dropLast) = stripLineSpec chunk := by
    unfold stripLineSpec
    by_cases hx : chunk.dropLast.getLast? = some '\r'
    · rw [if_pos ((charAt_last_iff _ _ (by decide)).mpr hx), if_pos hx]
    · rw [if_neg (fun hy => hx ((charAt_last_iff _ _ (by decide)).mp hy)), if_neg hx]
  refine ⟨rfl, ?_, ?_⟩
  · intro h
    simp only [aeron_properties_file_load_loop]
    rw [if_neg (fun hx => h ((charAt_last_iff chunk '\n' (by decide)).mp hx))]
  · intro h
    have hch : charAt chunk (chunk.length - 1) = '\n' :=
      (charAt_last_iff chunk '\n' (by decide)).mpr h
    constructor
    · intro hres
      simp only [aeron_properties_file_load_loop]
      rw [if_pos hch]
      simp only [hstrip]
      rw [if_pos hres]
    · intro hres
      simp only [aeron_properties_file_load_loop]
      rw [if_pos hch]
      simp only [hstrip]
      rw [if_neg (by omega)]

/-- Loader-wrapper facts, proved here and bundled into the C9 theorem
below: after a successful open the source handle is
released on every exit path; a failed open returns -1 having never
opened; the loader returns 0 exactly when no line failed and no read
error occurred, and -1 on any failure, reporting the loop's line
number. -/
theorem file_load_spec (chunks : List (List Char)) (readErr : Bool) :
    ((aeron_properties_file_load true chunks readErr).closed = true) ∧
    (aeron_properties_file_load false chunks readErr = ⟨-1, none, [], false⟩) ∧
    ((aeron_properties_file_load true chunks readErr).result = 0 ↔
      (aeron_properties_file_load_loop ⟨fun _ => '\x00', 0, 0⟩ chunks 1).errLine = none ∧
        readErr = false) ∧
    ((aeron_properties_file_load true chunks readErr).result = 0 ∨
      (aeron_properties_file_load true chunks readErr).result = -1) ∧
    ((aeron_properties_file_load true chunks readErr).errLine =
      (aeron_properties_file_load_loop ⟨fun _ => '\x00', 0, 0⟩ chunks 1).errLine) := by
  refine ⟨?_, ?_, ?_, ?_, ?_⟩ <;>
    · simp only [aeron_properties_file_load]
      rcases herr : (aeron_properties_file_load_loop ⟨fun _ => '\x00', 0, 0⟩ chunks 1).errLine
        with _ | k <;> cases readErr <;> simp

/-- C9: the loader's contract.  Per raw line: a chunk not ending in a
newline byte is a fatal error reported with the 1-based line number; a
chunk ending in newline has the newline and a preceding carriage return
stripped before being handed to the parser; a negative parser or handler
result aborts with the line number, otherwise the loop continues with
the next line number, and an exhausted stream succeeds.  For the whole
load: the source handle is closed on every exit path after a successful
open, a failed open returns -1, the result is 0 exactly when no line
failed and no read error occurred (and is -1 otherwise), and the
reported line number is the loop's. -/
theorem aeron_properties_file_load_ok (st : ParserState) (chunk : List Char)
    (rest : List (List Char)) (n : Nat) (chunks : List (List Char)) (readErr : Bool) :
    ((aeron_properties_file_load_loop st [] n = ⟨0, none, []⟩) ∧
    (chunk.getLast? ≠ some '\n' →
      aeron_properties_file_load_loop st (chunk :: rest) n = ⟨-1, some n, []⟩) ∧
    (chunk.getLast? = some '\n' →
      ((aeron_properties_parse_line st (stripLineSpec chunk)
          aeron_properties_setenv_property).result < 0 →
        aeron_properties_file_load_loop st (chunk :: rest) n =
          ⟨-1, some n, (aeron_properties_parse_line st (stripLineSpec chunk)
            aeron_properties_setenv_property).emits⟩) ∧
      (0 ≤ (aeron_properties_parse_line st (stripLineSpec chunk)
          aeron_properties_setenv_property).result →
        aeron_properties_file_load_loop st (chunk :: rest) n =
          ⟨(aeron_properties_file_load_loop
              (aeron_properties_parse_line st (stripLineSpec chunk)
                aeron_properties_setenv_property).state rest (n + 1)).result,
            (aeron_properties_file_load_loop
              (aeron_properties_parse_line st (stripLineSpec chunk)
                aeron_properties_setenv_property).state rest (n + 1)).errLine,
            (aeron_properties_parse_line st (stripLineSpec chunk)
              aeron_properties_setenv_property).emits ++
            (aeron_properties_file_load_loop
              (aeron_properties_parse_line st (stripLineSpec chunk)
                aeron_properties_setenv_property).state rest (n + 1)).emits⟩))) ∧
    (((aeron_properties_file_load true chunks readErr).closed = true) ∧
    (aeron_properties_file_load false chunks readErr = ⟨-1, none, [], false⟩) ∧
    ((aeron_properties_file_load true chunks readErr).result = 0 ↔
      (aeron_properties_file_load_loop ⟨fun _ => '\x00', 0, 0⟩ chunks 1).errLine = none ∧
        readErr = false) ∧
    ((aeron_properties_file_load true chunks readErr).result = 0 ∨
      (aeron_properties_file_load true chunks readErr).result = -1) ∧
    ((aeron_properties_file_load true chunks readErr).errLine =
      (aeron_properties_file_load_loop ⟨fun _ => '\x00', 0, 0⟩ chunks 1).errLine)) :=
  ⟨file_load_loop_spec st chunk rest n, file_load_spec chunks readErr⟩

/-- Witness for C9: a chunk with no trailing newline fails on line 1, a
failed open returns -1 without a close, and a small well-formed file
loads end to end, closing the source. -/
theorem aeron_properties_file_load_ok_witness :
    aeron_properties_file_load_loop ⟨fun _ => '\x00', 0, 0⟩ ["no newline".toList] 1 =
      ⟨-1, some 1, []⟩ ∧
    aeron_properties_file_load false ["a=1\n".toList] false = ⟨-1, none, [], false⟩ ∧
    aeron_properties_file_load true
      ["# header\n".toList, "foo.bar = baz\n".toList, "\n".toList] false =
      ⟨0, none, [("foo.bar".toList, "baz".toList)], true⟩ := by
  have h := aeron_properties_file_load_ok ⟨fun _ => '\x00', 0, 0⟩ "no newline".toList []
    1 ["a=1\n".toList] false
  exact ⟨h.1.2.1 (by decide), h.2.2.1, by decide⟩

end Aeron
